import Mathlib

/-!
Verification development for the file-share backup replication engine:
the replication lock coordinator (src/lib/synology-lock.js), the failover
connector and recursive directory synchronizer (src/lib/smb-helpers.js),
and the two run orchestrators (backupLv2 in the LV2 entry point,
backupLv1 in src/smb-backup-lv1.js).

The shallow embedding translates each JavaScript function into a pure
Lean function.  The MongoDB collection behind the lock coordinator is a
`List LockRecord` in insertion order; `updateOne` becomes "update the
first matching element", `updateMany` a map over matching elements,
`insertOne` an append.  Times are milliseconds since epoch as `Nat`
(JavaScript `Date.now() - d.getTime()` can be negative, in which case the
`> maxAge` staleness comparison is false; truncated `Nat` subtraction
gives the same verdict).  Mongo's sort order between records with equal
`startedAt` keys is unspecified; the embedding fixes the tie-break to
"later insertion wins".
-/

/-- Job status stored on a lock record: `status ∈ {running, completed, failed}`. -/
inductive JobStatus where
  | running
  | completed
  | failed
deriving DecidableEq, Repr

/-- Process identity written into a new lock record (`process.pid`,
`os.hostname()` in the source); supplied by the environment. -/
structure ProcEnv where
  pid : Nat
  hostname : String
deriving DecidableEq, Repr

/-- One document of the backup-jobs collection (see the `insertOne` call in
`acquireLock`, src/lib/synology-lock.js lines 135-144).  `id` stands for the
Mongo `_id`.  `ip` is optional because `selectLeastBusyIp` on an empty host
list yields `undefined`, which is stored as-is. -/
structure LockRecord where
  id : Nat
  backupName : String
  ip : Option String
  startedAt : Nat
  completedAt : Option Nat
  status : JobStatus
  pid : Nat
  hostname : String
  error : Option String
  result : Option String
deriving DecidableEq, Repr

/-- `STALE_JOB_HOURS = 24` (src/lib/synology-lock.js line 4). -/
def STALE_JOB_HOURS : Nat := 24

/-- `maxAge = STALE_JOB_HOURS * 60 * 60 * 1000` (line 28). -/
def maxAge : Nat := STALE_JOB_HOURS * 60 * 60 * 1000

/-- Update the first list element satisfying `p` (Mongo `updateOne`). -/
def updateFirst (p : LockRecord → Bool) (f : LockRecord → LockRecord) :
    List LockRecord → List LockRecord
  | [] => []
  | r :: rs => if p r then f r :: rs else r :: updateFirst p f rs

/-- Record with the greatest `startedAt` among `r :: rs`; on equal keys the
later element wins (Mongo leaves the order of equal sort keys unspecified;
the embedding fixes this tie-break). -/
def latestFrom (r : LockRecord) : List LockRecord → LockRecord
  | [] => r
  | x :: xs => latestFrom (if r.startedAt ≤ x.startedAt then x else r) xs

/-- `find({backupName}).sort({startedAt: -1}).limit(1)` (lines 15-19): the most
recent record for `name`, regardless of status. -/
def findLastJob (db : List LockRecord) (name : String) : Option LockRecord :=
  match db.filter (fun r => r.backupName == name) with
  | [] => none
  | r :: rs => some (latestFrom r rs)

/-- Rendering of `(jobAge / 3600000).toFixed(1)`: the job age in hours with one
decimal digit (the embedding floors where JavaScript rounds; no claim depends
on the digits). -/
def ageHoursStr (ms : Nat) : String :=
  toString (ms / 3600000) ++ "." ++ toString (ms * 10 / 3600000 % 10)

/-- Error text written when a stale record is reclaimed by `isBackupRunning`
(line 42). -/
def staleMarkMsg (ageMs : Nat) : String :=
  "No backup execution for " ++ ageHoursStr ageMs ++ "+ hours - marked as stale"

/-- The `$set` applied when `isBackupRunning` reclaims a stale most-recent
record `j` (lines 36-45): `failed`, the record's own `completedAt` when
present (a JavaScript `Date` object is always truthy in
`job.completedAt || new Date()`), and the staleness error. -/
def staleSet (j : LockRecord) (now jobAge : Nat) (r : LockRecord) : LockRecord :=
  { r with
    status := JobStatus.failed
    completedAt := some (j.completedAt.getD now)
    error := some (staleMarkMsg jobAge) }

/-- `isBackupRunning(backupName)` (lines 11-58).  Returns the busy verdict and
the possibly updated collection: a most-recent record older than `maxAge` is
marked `failed`, whatever its status. -/
def isBackupRunning (now : Nat) (db : List LockRecord) (name : String) :
    Bool × List LockRecord :=
  match findLastJob db name with
  | none => (false, db)
  | some j =>
    let jobAge := now - j.startedAt
    if jobAge > maxAge then
      (false, updateFirst (fun r => r.id == j.id) (staleSet j now jobAge) db)
    else if j.status == JobStatus.running then
      (true, db)
    else
      (false, db)

/-- Number of `running` records registered on `ip` (the per-IP entry of
`getJobCountsPerIp`, lines 65-88: running jobs whose `ip` equals this
candidate). -/
def jobCountForIp (db : List LockRecord) (ip : String) : Nat :=
  (db.filter (fun r => r.status == JobStatus.running && r.ip == some ip)).length

/-- Loop of `selectLeastBusyIp` (lines 102-108): strict `<` replaces the
current minimum, so the earliest least-busy candidate is kept. -/
def selGo (db : List LockRecord) : String → Nat → List String → String
  | sel, _, [] => sel
  | sel, minC, ip :: rest =>
      if jobCountForIp db ip < minC then
        selGo db ip (jobCountForIp db ip) rest
      else
        selGo db sel minC rest

/-- `selectLeastBusyIp(ips)` (lines 95-111): `undefined` on an empty candidate
list (`ips[0]` of `[]`), otherwise the least-busy host.  The loop runs over
the whole list, first comparing `ips[0]` with itself. -/
def selectLeastBusyIp (db : List LockRecord) : List String → Option String
  | [] => none
  | ip0 :: rest => some (selGo db ip0 (jobCountForIp db ip0) (ip0 :: rest))

/-- Next fresh Mongo `_id` for an insert. -/
def freshId (db : List LockRecord) : Nat :=
  db.foldl (fun m r => Nat.max m (r.id + 1)) 0

/-- Selection-and-insert tail of `acquireLock` (lines 126-146), reached when
the busy check passed: pick the least busy host, `insertOne` a `running`
record, and return the selected host (which the insert also stores, even when
it is `undefined`). -/
def acquireInsert (now : Nat) (db : List LockRecord) (name : String)
    (ips : List String) (env : ProcEnv) : Option String × List LockRecord :=
  let selectedIp := selectLeastBusyIp db ips
  (selectedIp,
    db ++ [{ id := freshId db
             backupName := name
             ip := selectedIp
             startedAt := now
             completedAt := none
             status := JobStatus.running
             pid := env.pid
             hostname := env.hostname
             error := none
             result := none }])

/-- `acquireLock(backupName, ips)` (lines 119-147): the busy check followed,
when it passes, by selection and insert. -/
def acquireLock (now : Nat) (db : List LockRecord) (name : String)
    (ips : List String) (env : ProcEnv) : Option String × List LockRecord :=
  let chk := isBackupRunning now db name
  if chk.1 then (none, chk.2) else acquireInsert now chk.2 name ips env

/-- `releaseLock(ip, backupName, result)` (lines 156-182): no-op when
`backupName` is falsy (the empty string), otherwise `updateOne` on the first
`running` record for the name, setting it `completed`. -/
def releaseLock (db : List LockRecord) (now : Nat) (backupName : String)
    (result : Option String) : List LockRecord :=
  if backupName = "" then db
  else
    updateFirst
      (fun r => r.backupName == backupName && r.status == JobStatus.running)
      (fun r =>
        { r with
          status := JobStatus.completed
          completedAt := some now
          result := result })
      db

/-- `markJobAsFailed(backupName, error)` (lines 190-208): `updateOne` on the
first `running` record for the name, setting it `failed`. -/
def markJobAsFailed (db : List LockRecord) (now : Nat) (backupName : String)
    (errMsg : String) : List LockRecord :=
  updateFirst
    (fun r => r.backupName == backupName && r.status == JobStatus.running)
    (fun r =>
      { r with
        status := JobStatus.failed
        completedAt := some now
        error := some errMsg })
    db

/-- Error text of the periodic sweep (line 228). -/
def cleanupMsg : String :=
  "Job exceeded 24h maximum runtime and was marked as stale"

/-- `cleanupStaleLocks()` (lines 214-236): `updateMany` over `running` records
with `startedAt` before `now - maxAge`, marking each `failed`. -/
def cleanupStaleLocks (db : List LockRecord) (now : Nat) : List LockRecord :=
  db.map (fun r =>
    if r.status == JobStatus.running && r.startedAt < now - maxAge then
      { r with
        status := JobStatus.failed
        completedAt := some now
        error := some cleanupMsg }
    else r)

/-- First record with the given `_id` (used to observe `updateOne {_id}`). -/
def findById (db : List LockRecord) (i : Nat) : Option LockRecord :=
  db.find? (fun r => r.id == i)

/-- JavaScript truthiness of the value returned by `acquireLock`: `null`,
`undefined` and the empty string are falsy. -/
def jsTruthy : Option String → Bool
  | none => false
  | some s => s ≠ ""

/-!
Run orchestrator `backupLv2` (LV2 entry point, lines 136-301).  The part
before `acquireLock` is configuration validation; the claims under study
start at a call where acquire was reached, so the model begins there.  The
body after a successful acquire connects to source and destination and syncs
three directories; per-directory errors are caught inside the loop (lines
254-264), so the body throws only on a connection failure — abstracted here
as the single flag `bodyFails`.  The `finally` block (lines 295-300) runs
`releaseLock(lockedIp, 'backupLv2')` whenever `lockedIp` is truthy;
`markJobAsFailed` is not imported and never called by the orchestrator.
-/

/-- Observable outcome of one `backupLv2` run: the acquired host, the lock
collection after the run, how many times each cleanup ran, and whether the
run re-threw an error. -/
structure Lv2Run where
  lockedIp : Option String
  db : List LockRecord
  releaseCalls : Nat
  markFailedCalls : Nat
  threw : Bool
  skipped : Bool
deriving DecidableEq, Repr

/-- `backupLv2()` from `acquireLock` onwards. -/
def backupLv2 (now : Nat) (db : List LockRecord) (ips : List String)
    (env : ProcEnv) (bodyFails : Bool) : Lv2Run :=
  let acq := acquireLock now db "backupLv2" ips env
  let lockedIp := acq.1
  let db1 := acq.2
  if jsTruthy lockedIp then
    -- connect + sync; then `finally` runs releaseLock once on either path
    let db2 := releaseLock db1 now "backupLv2" none
    { lockedIp := lockedIp, db := db2, releaseCalls := 1,
      markFailedCalls := 0, threw := bodyFails, skipped := false }
  else
    -- early `return` for the skip path; `finally` sees a falsy lockedIp
    { lockedIp := lockedIp, db := db1, releaseCalls := 0,
      markFailedCalls := 0, threw := false, skipped := true }

/-- The finalization discipline claimed for the orchestrator: whenever
acquire returned a truthy host, a successful run performs exactly one
release and no markFailed, and a throwing run exactly one markFailed and no
release. -/
def lv2FinalizeClaim (now : Nat) (db : List LockRecord) (ips : List String)
    (env : ProcEnv) (bodyFails : Bool) : Prop :=
  jsTruthy (backupLv2 now db ips env bodyFails).lockedIp = true →
    (((backupLv2 now db ips env bodyFails).threw = false →
        (backupLv2 now db ips env bodyFails).releaseCalls = 1 ∧
        (backupLv2 now db ips env bodyFails).markFailedCalls = 0) ∧
      ((backupLv2 now db ips env bodyFails).threw = true →
        (backupLv2 now db ips env bodyFails).markFailedCalls = 1 ∧
        (backupLv2 now db ips env bodyFails).releaseCalls = 0))

instance (now : Nat) (db : List LockRecord) (ips : List String)
    (env : ProcEnv) (bodyFails : Bool) :
    Decidable (lv2FinalizeClaim now db ips env bodyFails) := by
  unfold lv2FinalizeClaim; infer_instance

/-!
Interleaving semantics for two concurrent `acquireLock` executions on the
same name.  The source awaits between the `isBackupRunning` read (lines
121-124) and the selection-and-insert tail (lines 126-146); each of the two
phases is taken as one atomic step against the shared collection, which is
coarser than the real await points, so every modeled schedule corresponds to
a real interleaving.
-/

/-- One in-flight `acquireLock` execution: phase 0 has not yet run the busy
check, phase 1 has passed it, phase 2 is finished with `result`. -/
structure AcqThread where
  ips : List String
  env : ProcEnv
  phase : Nat
  result : Option String
deriving DecidableEq, Repr

/-- A fresh execution about to run `acquireLock` with the given candidates. -/
def acqStart (ips : List String) (env : ProcEnv) : AcqThread :=
  { ips := ips, env := env, phase := 0, result := none }

/-- Advance one execution by one atomic phase. -/
def threadStep (now : Nat) (name : String) (t : AcqThread)
    (db : List LockRecord) : AcqThread × List LockRecord :=
  match t.phase with
  | 0 =>
    let chk := isBackupRunning now db name
    if chk.1 then ({ t with phase := 2, result := none }, chk.2)
    else ({ t with phase := 1 }, chk.2)
  | 1 =>
    let ins := acquireInsert now db name t.ips t.env
    ({ t with phase := 2, result := ins.1 }, ins.2)
  | _ => (t, db)

/-- Shared state of two overlapping `acquireLock` executions. -/
structure TwoAcq where
  a : AcqThread
  b : AcqThread
  db : List LockRecord
deriving DecidableEq, Repr

/-- Run a schedule: `true` steps execution `a`, `false` steps execution `b`. -/
def runSched (now : Nat) (name : String) : List Bool → TwoAcq → TwoAcq
  | [], s => s
  | c :: cs, s =>
    if c then
      let st := threadStep now name s.a s.db
      runSched now name cs { s with a := st.1, db := st.2 }
    else
      let st := threadStep now name s.b s.db
      runSched now name cs { s with b := st.1, db := st.2 }

/-!
Failover connector `connectToSynologyWithFailover` (src/lib/smb-helpers.js
lines 41-72).  Opening and validating a session against one host is the
oracle `attempt`; the function returns the connected host or the aggregate
error, together with the list of hosts actually attempted, in order.
-/

/-- Aggregate-failure prefix (line 71); the suffix is
`lastError?.message`, which is the string `undefined` when no host was
attempted. -/
def noServerMsg : String := "Failed to connect to any SMB server. Last error: "

/-- The host loop, threading `lastError`. -/
def connectGo (attempt : String → Except String Unit) :
    List String → Option String → Except String String × List String
  | [], lastErr => (Except.error (noServerMsg ++ lastErr.getD "undefined"), [])
  | ip :: rest, _ =>
    match attempt ip with
    | Except.ok _ => (Except.ok ip, [ip])
    | Except.error e =>
      let r := connectGo attempt rest (some e)
      (r.1, ip :: r.2)

/-- `connectToSynologyWithFailover(ips, ...)`: try hosts in order, return the
first that opens and validates, else throw referencing the last cause. -/
def connectToSynologyWithFailover (attempt : String → Except String Unit)
    (ips : List String) : Except String String × List String :=
  connectGo attempt ips none

/-!
Directory synchronizer `copyDirectoryRecursive` (src/lib/smb-helpers.js
lines 227-302).  The source tree is the inductive listing the loop walks:
an entry is a file (with byte size, recorded modification time, and a flag
saying whether `readFile` on it succeeds — the per-file failure oracle) or a
directory with its own entries.  The destination share is a finite map from
target path (component list) to the recorded modification time, plus the set
of directories `ensureDirectory` has created; writing a file records the
current clock as its modification time, since the SMB client cannot preserve
source timestamps (comment at lines 189-190).  `fileExists` and
`getFileStats` coincide on this map, so the source's
"could not get stats, skip" fallback (lines 280-285) has no separate branch.
The log records each content read and write performed (`copyFile`,
lines 197-217); stat and listing operations are not logged.
-/

/-- One entry of the source listing. -/
inductive SrcEntry where
  | file (name : String) (size : Nat) (mtime : Nat) (readable : Bool)
  | dir (name : String) (entries : List SrcEntry)
deriving Repr

/-- Destination share state. -/
structure DestFs where
  files : List (List String × Nat)
  dirs : List (List String)
deriving DecidableEq, Repr

/-- Recorded modification time of the destination file at `p`, when present
(first binding wins, so a write shadows older bindings). -/
def destLookup (d : DestFs) (p : List String) : Option Nat :=
  d.files.lookup p

/-- `writeFile` to `p`: the destination now holds the file with the current
clock as its modification time. -/
def destWrite (d : DestFs) (p : List String) (clock : Nat) : DestFs :=
  { d with files := (p, clock) :: d.files }

/-- `ensureDirectory` (lines 162-186): create the directory if absent,
succeed if it already exists. -/
def ensureDir (d : DestFs) (p : List String) : DestFs :=
  if d.dirs.contains p then d else { d with dirs := d.dirs ++ [p] }

/-- A content read or write performed during a run, with the path it
touched. -/
inductive Ev where
  | readF (p : List String)
  | writeF (p : List String)
deriving DecidableEq, Repr

/-- `SyncStats` accumulated by one synchronizer invocation. -/
structure SyncStats where
  copiedFiles : Nat
  skippedFiles : Nat
  totalBytes : Nat
deriving DecidableEq, Repr

/-- Additive fold of child stats into the running totals (lines 256-258). -/
def SyncStats.add (a b : SyncStats) : SyncStats :=
  { copiedFiles := a.copiedFiles + b.copiedFiles
    skippedFiles := a.skippedFiles + b.skippedFiles
    totalBytes := a.totalBytes + b.totalBytes }

/-- Zero stats. -/
def SyncStats.zero : SyncStats := { copiedFiles := 0, skippedFiles := 0, totalBytes := 0 }

/-- Result of a synchronizer call: the stats, the destination afterwards, and
the reads/writes performed. -/
structure SyncOut where
  stats : SyncStats
  dest : DestFs
  log : List Ev
deriving DecidableEq, Repr

/-- File branch of the per-item loop (lines 259-298): absent on destination →
copy; present with strictly older recorded modification time → overwrite;
otherwise count a skip with no content read or write.  A failing read is
caught by the per-item handler (lines 295-298): nothing is counted and the
destination is untouched. -/
def syncFileItem (clock : Nat) (dest : DestFs) (sp tp : List String)
    (size : Nat) (mtime : Nat) (readable : Bool) : SyncOut :=
  match destLookup dest tp with
  | none =>
    if readable then
      { stats := { copiedFiles := 1, skippedFiles := 0, totalBytes := size }
        dest := destWrite dest tp clock
        log := [Ev.readF sp, Ev.writeF tp] }
    else
      { stats := SyncStats.zero, dest := dest, log := [Ev.readF sp] }
  | some destMtime =>
    if destMtime < mtime then
      if readable then
        { stats := { copiedFiles := 1, skippedFiles := 0, totalBytes := size }
          dest := destWrite dest tp clock
          log := [Ev.readF sp, Ev.writeF tp] }
      else
        { stats := SyncStats.zero, dest := dest, log := [Ev.readF sp] }
    else
      { stats := { copiedFiles := 0, skippedFiles := 1, totalBytes := 0 }
        dest := dest, log := [] }

mutual

/-- The per-item body (lines 238-299): directories recurse, files go through
`syncFileItem`. -/
def syncEntry (clock : Nat) (dest : DestFs) (sp tp : List String) :
    SrcEntry → SyncOut
  | SrcEntry.file n size mtime readable =>
    syncFileItem clock dest (sp ++ [n]) (tp ++ [n]) size mtime readable
  | SrcEntry.dir n es =>
    copyDirectoryRecursive clock dest (sp ++ [n]) (tp ++ [n]) es

/-- `copyDirectoryRecursive(sourcePath, targetPath)` over the listing `es` of
the source directory at `sp`: ensure the target directory, then process each
item in order. -/
def copyDirectoryRecursive (clock : Nat) (dest : DestFs) (sp tp : List String)
    (es : List SrcEntry) : SyncOut :=
  syncList clock (ensureDir dest tp) sp tp es

/-- The `for (const item of items)` loop (lines 238-299), threading the
destination state and summing stats. -/
def syncList (clock : Nat) (dest : DestFs) (sp tp : List String) :
    List SrcEntry → SyncOut
  | [] => { stats := SyncStats.zero, dest := dest, log := [] }
  | e :: es =>
    let o1 := syncEntry clock dest sp tp e
    let o2 := syncList clock o1.dest sp tp es
    { stats := o1.stats.add o2.stats, dest := o2.dest, log := o1.log ++ o2.log }

end

/-- Entry is a file (the synchronizer's `isDirectory` probe answered no). -/
def isFileEntry : SrcEntry → Bool
  | SrcEntry.file _ _ _ _ => true
  | SrcEntry.dir _ _ => false

/-- Entry is a file whose content read succeeds. -/
def isReadableFile : SrcEntry → Bool
  | SrcEntry.file _ _ _ r => r
  | SrcEntry.dir _ _ => false

/-- Name of a listing entry. -/
def entryName : SrcEntry → String
  | SrcEntry.file n _ _ _ => n
  | SrcEntry.dir n _ => n

mutual

/-- Every file in the tree is readable. -/
def entryAllReadable : SrcEntry → Bool
  | SrcEntry.file _ _ _ r => r
  | SrcEntry.dir _ es => forestAllReadable es

/-- Every file in every tree of the forest is readable. -/
def forestAllReadable : List SrcEntry → Bool
  | [] => true
  | e :: es => entryAllReadable e && forestAllReadable es

end

mutual

/-- Every file modification time in the tree is at most `c`. -/
def entryMtimesLE (c : Nat) : SrcEntry → Bool
  | SrcEntry.file _ _ mt _ => mt ≤ c
  | SrcEntry.dir _ es => forestMtimesLE c es

/-- Every file modification time in the forest is at most `c`. -/
def forestMtimesLE (c : Nat) : List SrcEntry → Bool
  | [] => true
  | e :: es => entryMtimesLE c e && forestMtimesLE c es

end

mutual

/-- Number of files in the tree, nested directories included. -/
def entryFileCount : SrcEntry → Nat
  | SrcEntry.file _ _ _ _ => 1
  | SrcEntry.dir _ es => forestFileCount es

/-- Number of files in the forest, nested directories included. -/
def forestFileCount : List SrcEntry → Nat
  | [] => 0
  | e :: es => entryFileCount e + forestFileCount es

end

mutual

/-- Every file of the tree rooted under target path `tp` is present on the
destination with a recorded modification time at least the source's. -/
def entryCovered (d : DestFs) (tp : List String) : SrcEntry → Prop
  | SrcEntry.file n _ mt _ =>
    ∃ m, destLookup d (tp ++ [n]) = some m ∧ mt ≤ m
  | SrcEntry.dir n es => forestCovered d (tp ++ [n]) es

/-- `entryCovered` over a forest. -/
def forestCovered (d : DestFs) (tp : List String) : List SrcEntry → Prop
  | [] => True
  | e :: es => entryCovered d tp e ∧ forestCovered d tp es

end

/-!
LV1 backup `backupLv1` (src/smb-backup-lv1.js lines 197-318).  The per-file
loop (lines 264-288) checks only `fileExists` on the target: an existing
target is skipped outright, with no stat and no content read or write;
otherwise `copyFile` runs and a failure is caught per file (lines 284-287).
Modification times are carried on the source file description but never
consulted.  The source listing is the flat root listing (line 260); an entry
that is actually a directory behaves like an unreadable file here (its
`readFile` fails and is caught).
-/

/-- One source file of the LV1 root listing. -/
structure Lv1File where
  name : String
  size : Nat
  mtime : Nat
  readable : Bool
deriving DecidableEq, Repr

/-- Totals and effects of an LV1 run over the listing. -/
structure Lv1Out where
  copied : Nat
  skipped : Nat
  bytes : Nat
  dest : DestFs
  log : List Ev
deriving DecidableEq, Repr

/-- Body of the LV1 per-file loop (lines 264-288). -/
def lv1Step (clock : Nat) (dest : DestFs) (tp : List String) (f : Lv1File) :
    Lv1Out :=
  let target := tp ++ [f.name]
  if (destLookup dest target).isSome then
    { copied := 0, skipped := 1, bytes := 0, dest := dest, log := [] }
  else if f.readable then
    { copied := 1, skipped := 0, bytes := f.size
      dest := destWrite dest target clock
      log := [Ev.readF [f.name], Ev.writeF target] }
  else
    { copied := 0, skipped := 0, bytes := 0, dest := dest
      log := [Ev.readF [f.name]] }

/-- The LV1 file loop over the whole listing, accumulating totals. -/
def backupLv1Files (clock : Nat) (dest : DestFs) (tp : List String) :
    List Lv1File → Lv1Out
  | [] => { copied := 0, skipped := 0, bytes := 0, dest := dest, log := [] }
  | f :: fs =>
    let o1 := lv1Step clock dest tp f
    let o2 := backupLv1Files clock o1.dest tp fs
    { copied := o1.copied + o2.copied
      skipped := o1.skipped + o2.skipped
      bytes := o1.bytes + o2.bytes
      dest := o2.dest
      log := o1.log ++ o2.log }

/-!
Concrete fixtures used by witnesses and counterexamples.
-/

/-- A process identity for concrete runs. -/
def envC : ProcEnv := { pid := 321, hostname := "cron-host" }

/-- A lock record finalized as `completed` 25 hours before `nowC`. -/
def oldDoneRec : LockRecord :=
  { id := 7, backupName := "backupLv2", ip := some "h1", startedAt := 0
    completedAt := some 3600000, status := JobStatus.completed
    pid := 11, hostname := "cron-host", error := none, result := none }

/-- 25 hours in milliseconds: past the 24-hour staleness threshold. -/
def nowC : Nat := 90000000

/-- A `running` lock record started at time 1000. -/
def runningRec : LockRecord :=
  { id := 3, backupName := "backupLv2", ip := some "h1", startedAt := 1000
    completedAt := none, status := JobStatus.running
    pid := 11, hostname := "cron-host", error := none, result := none }

/-- Connectivity oracle of scenario 4: H1 down, H2 up. -/
def attemptC : String → Except String Unit := fun ip =>
  if ip == "H2" then Except.ok () else Except.error "ECONNREFUSED"

/-- Connectivity oracle with every host down. -/
def attemptDown : String → Except String Unit := fun _ =>
  Except.error "ETIMEDOUT"

/-- A destination holding one file at path `["a"]` with recorded
modification time 50. -/
def destC : DestFs := { files := [(["a"], 50)], dirs := [[]] }

/-!
Helper lemmas about the lock-store primitives.
-/

/-- `updateOne` leaves every position whose record does not satisfy the
predicate untouched. -/
theorem updateFirst_get_of_not (p : LockRecord → Bool) (f : LockRecord → LockRecord) :
    ∀ (l : List LockRecord) (i : Nat) (r : LockRecord),
      l.get? i = some r → p r = false → (updateFirst p f l).get? i = some r := by
  intro l
  induction l with
  | nil => intro i r h _; simp at h
  | cons x xs ih =>
    intro i r h hp
    cases i with
    | zero =>
      simp at h
      subst h
      simp [updateFirst, hp]
    | succ n =>
      simp only [List.get?] at h
      by_cases hx : p x
      · simp only [updateFirst, if_pos hx, List.get?_cons_succ]
        exact h
      · simp only [updateFirst, if_neg hx, List.get?_cons_succ]
        exact ih n r h hp

/-- Every record of an `updateOne` result comes from the original list,
either unchanged or as the image of the update. -/
theorem mem_updateFirst (p : LockRecord → Bool) (f : LockRecord → LockRecord) :
    ∀ (l : List LockRecord) (r : LockRecord), r ∈ updateFirst p f l →
      r ∈ l ∨ ∃ x ∈ l, r = f x := by
  intro l
  induction l with
  | nil => intro r h; simp [updateFirst] at h
  | cons x xs ih =>
    intro r h
    by_cases hx : p x
    · simp only [updateFirst, if_pos hx, List.mem_cons] at h
      rcases h with h | h
      · exact Or.inr ⟨x, List.mem_cons_self x xs, h⟩
      · exact Or.inl (List.mem_cons_of_mem x h)
    · simp only [updateFirst, if_neg hx, List.mem_cons] at h
      rcases h with h | h
      · exact Or.inl (by simp [h])
      · rcases ih r h with h1 | ⟨y, hy, hfy⟩
        · exact Or.inl (List.mem_cons_of_mem x h1)
        · exact Or.inr ⟨y, List.mem_cons_of_mem x hy, hfy⟩

/-- The running maximum stays within any bound satisfied by the seed and all
list elements. -/
theorem latestFrom_le (c : Nat) :
    ∀ (xs : List LockRecord) (a : LockRecord), a.startedAt ≤ c →
      (∀ x ∈ xs, x.startedAt ≤ c) → (latestFrom a xs).startedAt ≤ c := by
  intro xs
  induction xs with
  | nil => intro a ha _; simpa [latestFrom] using ha
  | cons x xs ih =>
    intro a ha hall
    simp only [latestFrom]
    by_cases h : a.startedAt ≤ x.startedAt
    · simp only [if_pos h]
      exact ih x (hall x (List.mem_cons_self x xs)) fun y hy => hall y (List.mem_cons_of_mem x hy)
    · simp only [if_neg h]
      exact ih a ha fun y hy => hall y (List.mem_cons_of_mem x hy)

/-- The running maximum is the seed or a list element. -/
theorem latestFrom_mem :
    ∀ (xs : List LockRecord) (a : LockRecord), latestFrom a xs = a ∨ latestFrom a xs ∈ xs := by
  intro xs
  induction xs with
  | nil => intro a; simp [latestFrom]
  | cons x xs ih =>
    intro a
    simp only [latestFrom]
    by_cases h : a.startedAt ≤ x.startedAt
    · simp only [if_pos h]
      rcases ih x with h1 | h1
      · exact Or.inr (by simp [h1])
      · exact Or.inr (List.mem_cons_of_mem x h1)
    · simp only [if_neg h]
      rcases ih a with h1 | h1
      · exact Or.inl h1
      · exact Or.inr (List.mem_cons_of_mem x h1)

/-- Appending a record at least as recent as the seed and every element makes
it the running maximum (later insertion wins ties). -/
theorem latestFrom_append_last (y : LockRecord) :
    ∀ (xs : List LockRecord) (a : LockRecord), a.startedAt ≤ y.startedAt →
      (∀ x ∈ xs, x.startedAt ≤ y.startedAt) → latestFrom a (xs ++ [y]) = y := by
  intro xs
  induction xs with
  | nil => intro a ha _; simp [latestFrom, ha]
  | cons x xs ih =>
    intro a ha hall
    simp only [List.cons_append, latestFrom]
    by_cases h : a.startedAt ≤ x.startedAt
    · simp only [if_pos h]
      exact ih x (hall x (List.mem_cons_self x xs)) fun z hz => hall z (List.mem_cons_of_mem x hz)
    · simp only [if_neg h]
      exact ih a ha fun z hz => hall z (List.mem_cons_of_mem x hz)

/-- The most recent job for a name is a record of the collection carrying
that name. -/
theorem findLastJob_mem (db : List LockRecord) (name : String) (j : LockRecord)
    (h : findLastJob db name = some j) : j ∈ db ∧ j.backupName = name := by
  unfold findLastJob at h
  cases hf : db.filter (fun r => r.backupName == name) with
  | nil => rw [hf] at h; simp at h
  | cons r rs =>
    rw [hf] at h
    simp only [Option.some.injEq] at h
    have hjmem : j ∈ r :: rs := by
      rcases latestFrom_mem rs r with h1 | h1
      · rw [← h, h1]; exact List.mem_cons_self r rs
      · rw [← h]; exact List.mem_cons_of_mem r h1
    rw [← hf] at hjmem
    have := List.mem_filter.mp hjmem
    exact ⟨this.1, by simpa using this.2⟩

/-- After inserting a record for `name` at least as recent as every existing
record for `name`, that record is the most recent one. -/
theorem findLastJob_append_new (db : List LockRecord) (name : String)
    (nr : LockRecord) (hn : nr.backupName = name)
    (hrec : ∀ r ∈ db, r.backupName = name → r.startedAt ≤ nr.startedAt) :
    findLastJob (db ++ [nr]) name = some nr := by
  unfold findLastJob
  have hfil : (db ++ [nr]).filter (fun r => r.backupName == name) =
      db.filter (fun r => r.backupName == name) ++ [nr] := by
    rw [List.filter_append]
    simp [List.filter, hn]
  rw [hfil]
  have hall : ∀ x ∈ db.filter (fun r => r.backupName == name),
      x.startedAt ≤ nr.startedAt := by
    intro x hx
    have := List.mem_filter.mp hx
    exact hrec x this.1 (by simpa using this.2)
  cases hf : db.filter (fun r => r.backupName == name) with
  | nil => simp [latestFrom]
  | cons r rs =>
    simp only [List.cons_append]
    have hr : r.startedAt ≤ nr.startedAt := hall r (by rw [hf]; exact List.mem_cons_self r rs)
    have hrs : ∀ x ∈ rs, x.startedAt ≤ nr.startedAt := fun x hx =>
      hall x (by rw [hf]; exact List.mem_cons_of_mem r hx)
    rw [latestFrom_append_last nr rs r hr hrs]

/-- A nonempty candidate list always yields a selected host. -/
theorem selectLeastBusyIp_isSome (db : List LockRecord) (ips : List String)
    (h : ips ≠ []) : (selectLeastBusyIp db ips).isSome = true := by
  cases ips with
  | nil => exact absurd rfl h
  | cons ip0 rest => simp [selectLeastBusyIp]

/-- A hit in the first part of a list is a hit in the whole list. -/
theorem findById_append_of_some :
    ∀ (l₁ l₂ : List LockRecord) (i : Nat) (r : LockRecord),
      findById l₁ i = some r → findById (l₁ ++ l₂) i = some r := by
  intro l₁
  induction l₁ with
  | nil => intro l₂ i r h; simp [findById] at h
  | cons x xs ih =>
    intro l₂ i r h
    by_cases hx : (x.id == i) = true
    · unfold findById at h ⊢
      simp only [List.cons_append, List.find?, hx] at h ⊢
      exact h
    · rw [Bool.not_eq_true] at hx
      unfold findById at h ⊢
      simp only [List.cons_append, List.find?, hx] at h ⊢
      exact ih l₂ i r h

/-- With unique `_id`s, updating the record with `j`'s id and looking it up
again returns exactly the updated record. -/
theorem findById_updateFirst (f : LockRecord → LockRecord)
    (hf : ∀ r, (f r).id = r.id) :
    ∀ (db : List LockRecord) (j : LockRecord),
      (db.map LockRecord.id).Nodup → j ∈ db →
      findById (updateFirst (fun r => r.id == j.id) f db) j.id = some (f j) := by
  intro db
  induction db with
  | nil => intro j _ hj; simp at hj
  | cons x xs ih =>
    intro j hnd hj
    have hnd' := hnd
    rw [List.map_cons, List.nodup_cons] at hnd'
    by_cases hx : (x.id == j.id) = true
    · have hxid : x.id = j.id := by simpa using hx
      have hxj : x = j := by
        rcases List.mem_cons.mp hj with h | h
        · exact h.symm
        · exact absurd (hxid ▸ List.mem_map_of_mem LockRecord.id h) hnd'.1
      unfold updateFirst findById
      rw [if_pos hx]
      rw [List.find?_cons_of_pos _ (by simp [hf, hxid])]
      rw [hxj]
    · have hxid : x.id ≠ j.id := by simpa using hx
      have hjx : j ∈ xs := by
        rcases List.mem_cons.mp hj with h | h
        · exact absurd (h ▸ rfl) (Ne.symm hxid)
        · exact h
      unfold updateFirst findById
      rw [if_neg (by simpa using hx)]
      rw [List.find?_cons_of_neg _ (by simpa using hx)]
      exact ih j hnd'.2 hjx

/-- C4: when the most recent lock record for the name is `running` and its
age is within the 24-hour staleness threshold, `acquireLock` returns `null`
and leaves the collection exactly as it found it — no record is inserted or
modified. -/
theorem acquireLock_busy_returns_null
    (now : Nat) (db : List LockRecord) (name : String) (ips : List String)
    (env : ProcEnv) (j : LockRecord)
    (hj : findLastJob db name = some j)
    (hrun : j.status = JobStatus.running)
    (hage : now - j.startedAt ≤ maxAge) :
    acquireLock now db name ips env = (none, db) := by
  have hgt : ¬ (now - j.startedAt > maxAge) := by omega
  simp [acquireLock, isBackupRunning, hj, hgt, hrun]

/-- Witness for C4: a record started 1 second before `now`, still running,
blocks the next acquire and the store is unchanged. -/
theorem acquireLock_busy_returns_null_witness :
    acquireLock 2000 [runningRec] "backupLv2" ["h1"] envC = (none, [runningRec]) :=
  acquireLock_busy_returns_null 2000 [runningRec] "backupLv2" ["h1"] envC
    runningRec (by decide) (by decide) (by decide)

/-- C5: when the most recent lock record for the name is `running` but older
than the 24-hour threshold, `acquireLock` returns a host (the candidate list
being nonempty) and the stale record afterwards reads `failed` with the
explanatory staleness error attached. -/
theorem acquireLock_stale_reclaims
    (now : Nat) (db : List LockRecord) (name : String) (ips : List String)
    (env : ProcEnv) (j : LockRecord)
    (hj : findLastJob db name = some j)
    (_hrun : j.status = JobStatus.running)
    (hids : (db.map LockRecord.id).Nodup)
    (hage : maxAge < now - j.startedAt)
    (hips : ips ≠ []) :
    (acquireLock now db name ips env).1.isSome = true ∧
    findById (acquireLock now db name ips env).2 j.id =
      some { j with
             status := JobStatus.failed
             completedAt := some (j.completedAt.getD now)
             error := some (staleMarkMsg (now - j.startedAt)) } := by
  have hgt : now - j.startedAt > maxAge := hage
  have hmem := findLastJob_mem db name j hj
  have hacq : acquireLock now db name ips env =
      acquireInsert now
        (updateFirst (fun r => r.id == j.id)
          (staleSet j now (now - j.startedAt)) db)
        name ips env := by
    simp [acquireLock, isBackupRunning, hj, hgt]
  rw [hacq]
  constructor
  · simpa [acquireInsert] using
      selectLeastBusyIp_isSome
        (updateFirst (fun r => r.id == j.id)
          (staleSet j now (now - j.startedAt)) db)
        ips hips
  · simp only [acquireInsert]
    exact findById_append_of_some _ _ _ _
      (findById_updateFirst (staleSet j now (now - j.startedAt))
        (fun r => rfl) db j hids hmem.1)

/-- Witness for C5: scenario 6 of the spec — a `running` record 25 hours old
is reclaimed, the new acquire returns a host, and the old record reads
`failed` with the staleness error. -/
theorem acquireLock_stale_reclaims_witness :
    maxAge < nowC - runningRec.startedAt ∧
    (acquireLock nowC [runningRec] "backupLv2" ["h1"] envC).1.isSome = true ∧
    findById (acquireLock nowC [runningRec] "backupLv2" ["h1"] envC).2 3 =
      some { runningRec with
             status := JobStatus.failed
             completedAt := some nowC
             error := some (staleMarkMsg (nowC - runningRec.startedAt)) } :=
  ⟨by decide,
    (acquireLock_stale_reclaims nowC [runningRec] "backupLv2" ["h1"] envC
      runningRec (by decide) (by decide) (by decide) (by decide)
      (by decide)).1,
    (acquireLock_stale_reclaims nowC [runningRec] "backupLv2" ["h1"] envC
      runningRec (by decide) (by decide) (by decide) (by decide)
      (by decide)).2⟩

/-- Every record of the collection returned by the busy check keeps its
original `startedAt` (the stale reclaim rewrites status, completion time and
error only). -/
theorem isBackupRunning_preserves_startedAt (now : Nat) (db : List LockRecord)
    (name : String) :
    ∀ r ∈ (isBackupRunning now db name).2, ∃ x ∈ db, r.startedAt = x.startedAt := by
  intro r hr
  unfold isBackupRunning at hr
  cases hj : findLastJob db name with
  | none => rw [hj] at hr; exact ⟨r, hr, rfl⟩
  | some j =>
    rw [hj] at hr
    simp only at hr
    by_cases hgt : now - j.startedAt > maxAge
    · rw [if_pos hgt] at hr
      rcases mem_updateFirst _ _ db r hr with h | ⟨x, hx, hfx⟩
      · exact ⟨r, h, rfl⟩
      · exact ⟨x, hx, by rw [hfx]; rfl⟩
    · rw [if_neg hgt] at hr
      by_cases hst : (j.status == JobStatus.running) = true
      · rw [if_pos hst] at hr; exact ⟨r, hr, rfl⟩
      · rw [if_neg hst] at hr; exact ⟨r, hr, rfl⟩

/-- C2 (amended): a record with a terminal status is never modified by
`releaseLock`, `markJobAsFailed`, or the periodic stale sweep (they match
only `running` records); and `acquireLock` proceeds to selection without
altering a terminal most-recent record provided its age is within the
24-hour threshold — the collection afterwards is exactly the old one plus
the newly inserted record.  (Beyond the threshold the staleness check
rewrites even a terminal record; see the counterexample.) -/
theorem lockRecord_terminal_untouched
    (db : List LockRecord) (i now : Nat) (r : LockRecord) (name : String)
    (res : Option String) (msg : String) (ips : List String) (env : ProcEnv)
    (hr : db.get? i = some r) (hterm : r.status ≠ JobStatus.running) :
    (releaseLock db now name res).get? i = some r ∧
    (markJobAsFailed db now name msg).get? i = some r ∧
    (cleanupStaleLocks db now).get? i = some r ∧
    (∀ j, findLastJob db name = some j → j.status ≠ JobStatus.running →
      now - j.startedAt ≤ maxAge →
      ∃ newRec, (acquireLock now db name ips env).2 = db ++ [newRec]) := by
  have hpred : ∀ s : String,
      (fun x : LockRecord => x.backupName == s && x.status == JobStatus.running) r = false := by
    intro s
    simp only [Bool.and_eq_false_iff]
    right
    simpa using hterm
  refine ⟨?_, ?_, ?_, ?_⟩
  · unfold releaseLock
    by_cases hn : name = ""
    · rw [if_pos hn]; exact hr
    · rw [if_neg hn]
      exact updateFirst_get_of_not _ _ db i r hr (hpred name)
  · unfold markJobAsFailed
    exact updateFirst_get_of_not _ _ db i r hr (hpred name)
  · unfold cleanupStaleLocks
    have hc : (r.status == JobStatus.running && decide (r.startedAt < now - maxAge)) = false := by
      simp only [Bool.and_eq_false_iff]
      left
      simpa using hterm
    have hcp : ¬ ((r.status == JobStatus.running && decide (r.startedAt < now - maxAge)) = true) := by
      rw [hc]; simp
    rw [List.get?_map, hr, Option.map_some', if_neg hcp]
  · intro j hj hjterm hjage
    have hgt : ¬ (now - j.startedAt > maxAge) := by omega
    have hst : (j.status == JobStatus.running) = false := by simpa using hjterm
    refine ⟨{ id := freshId db, backupName := name, ip := selectLeastBusyIp db ips,
              startedAt := now, completedAt := none, status := JobStatus.running,
              pid := env.pid, hostname := env.hostname, error := none,
              result := none }, ?_⟩
    simp [acquireLock, isBackupRunning, hj, hgt, hst, acquireInsert]

/-- Witness for C2: a completed record one hour old is untouched by release,
markFailed and the sweep, and a fresh acquire appends a new record after it
without altering it. -/
theorem lockRecord_terminal_untouched_witness :
    (releaseLock [oldDoneRec] 7200000 "backupLv2" none).get? 0 = some oldDoneRec ∧
    (markJobAsFailed [oldDoneRec] 7200000 "backupLv2" "boom").get? 0 = some oldDoneRec ∧
    (cleanupStaleLocks [oldDoneRec] 7200000).get? 0 = some oldDoneRec ∧
    (∃ newRec, (acquireLock 7200000 [oldDoneRec] "backupLv2" ["h1"] envC).2 =
      [oldDoneRec] ++ [newRec]) := by
  have h := lockRecord_terminal_untouched [oldDoneRec] 0 7200000 oldDoneRec
    "backupLv2" none "boom" ["h1"] envC (by decide) (by decide)
  exact ⟨h.1, h.2.1, h.2.2.1,
    h.2.2.2 oldDoneRec (by decide) (by decide) (by decide)⟩

/-- C2 counterexample: the most recent record is terminal (`completed`), yet
an acquire 25 hours later rewrites it to `failed` — a terminal record is
re-modified, refuting finalized-exactly-once as stated. -/
theorem lockRecord_terminal_remodified_cex :
    oldDoneRec.status = JobStatus.completed ∧
    (findById (acquireLock nowC [oldDoneRec] "backupLv2" ["h1"] envC).2 7).map
        LockRecord.status = some JobStatus.failed := by
  constructor
  · rfl
  · decide

/-- C1 counterexample: a run in which the body throws after a successful
acquire still executes `releaseLock` (marking the record `completed`) and
never executes `markJobAsFailed` — refuting "release on success, markFailed
on thrown error" as stated. -/
theorem backupLv2_no_markFailed_on_error_cex :
    ¬ lv2FinalizeClaim 0 [] ["h1"] envC true := by decide

/-- C1 (amended): whenever `acquireLock` returns a truthy host, the
`finally` block executes `releaseLock` exactly once and `markJobAsFailed`
never, on the success path and the error path alike — so even a failed run
leaves its lock record `completed`, not `failed`. -/
theorem backupLv2_release_exactly_once
    (now : Nat) (db : List LockRecord) (ips : List String) (env : ProcEnv)
    (bodyFails : Bool)
    (h : jsTruthy (backupLv2 now db ips env bodyFails).lockedIp = true) :
    (backupLv2 now db ips env bodyFails).releaseCalls = 1 ∧
    (backupLv2 now db ips env bodyFails).markFailedCalls = 0 := by
  by_cases hc : jsTruthy (acquireLock now db "backupLv2" ips env).1 = true
  · simp [backupLv2, hc]
  · exfalso
    simp [backupLv2, hc] at h

/-- Witness for C1 (amended): a throwing run with a truthy acquired host
performs one release and zero markFailed calls. -/
theorem backupLv2_release_exactly_once_witness :
    jsTruthy (backupLv2 0 [] ["h1"] envC true).lockedIp = true ∧
    (backupLv2 0 [] ["h1"] envC true).releaseCalls = 1 ∧
    (backupLv2 0 [] ["h1"] envC true).markFailedCalls = 0 :=
  ⟨by decide,
    (backupLv2_release_exactly_once 0 [] ["h1"] envC true (by decide)).1,
    (backupLv2_release_exactly_once 0 [] ["h1"] envC true (by decide)).2⟩

/-- C3 counterexample: the schedule check-A, check-B, insert-A, insert-B over
an empty collection lets both overlapping `acquireLock` executions observe
"no running record" and both return a non-null host — the at-most-one
property fails for overlapping calls. -/
theorem acquireLock_overlap_both_nonnull_cex :
    jsTruthy ((runSched 1000 "backupLv2" [true, false, true, false]
      { a := acqStart ["h1"] envC, b := acqStart ["h2"] envC, db := [] }).a.result) = true ∧
    jsTruthy ((runSched 1000 "backupLv2" [true, false, true, false]
      { a := acqStart ["h1"] envC, b := acqStart ["h2"] envC, db := [] }).b.result) = true := by
  decide

/-- C3 (amended): mutual exclusion holds for non-overlapping calls — when one
`acquireLock` for a name completes with a host before the next one starts
(every prior record predating the first call, the second call issued no
earlier and within the staleness window), the second call returns `null`.
Overlapping executions, by contrast, can both return a host (see the
counterexample): the read-then-insert sequence is not atomic. -/
theorem acquireLock_sequential_mutex
    (now1 now2 : Nat) (db : List LockRecord) (name : String)
    (ips1 ips2 : List String) (env1 env2 : ProcEnv)
    (hpast : ∀ r ∈ db, r.startedAt < now1)
    (h12 : now1 ≤ now2) (hfresh : now2 ≤ now1 + maxAge)
    (hfirst : (acquireLock now1 db name ips1 env1).1.isSome = true) :
    (acquireLock now2 (acquireLock now1 db name ips1 env1).2 name ips2 env2).1 = none := by
  rcases hb : isBackupRunning now1 db name with ⟨busy, db1⟩
  have hbusy : busy = false := by
    cases busy
    · rfl
    · exfalso
      simp [acquireLock, hb] at hfirst
  subst hbusy
  have h2 : (acquireLock now1 db name ips1 env1).2 =
      db1 ++ [{ id := freshId db1, backupName := name,
                ip := selectLeastBusyIp db1 ips1, startedAt := now1,
                completedAt := none, status := JobStatus.running,
                pid := env1.pid, hostname := env1.hostname, error := none,
                result := none }] := by
    simp [acquireLock, hb, acquireInsert]
  rw [h2]
  have hdb1 : ∀ r ∈ db1, r.startedAt ≤ now1 := by
    intro r hrm
    have hr2 : r ∈ (isBackupRunning now1 db name).2 := by rw [hb]; exact hrm
    rcases isBackupRunning_preserves_startedAt now1 db name r hr2 with ⟨x, hx, hxe⟩
    exact hxe ▸ le_of_lt (hpast x hx)
  have hlast : findLastJob
      (db1 ++ [{ id := freshId db1, backupName := name,
                 ip := selectLeastBusyIp db1 ips1, startedAt := now1,
                 completedAt := none, status := JobStatus.running,
                 pid := env1.pid, hostname := env1.hostname, error := none,
                 result := none }]) name = some
      { id := freshId db1, backupName := name,
        ip := selectLeastBusyIp db1 ips1, startedAt := now1,
        completedAt := none, status := JobStatus.running,
        pid := env1.pid, hostname := env1.hostname, error := none,
        result := none } :=
    findLastJob_append_new db1 name _ rfl (fun r hrm _ => hdb1 r hrm)
  have hgt : ¬ (now2 - now1 > maxAge) := by omega
  simp [acquireLock, isBackupRunning, hlast, hgt]

/-- Witness for C3 (amended): scenario 5 run back-to-back — the first acquire
over an empty collection wins a host, the second immediately after returns
`null`. -/
theorem acquireLock_sequential_mutex_witness :
    (acquireLock 1000 [] "LV1" ["h1", "h2"] envC).1.isSome = true ∧
    (acquireLock 1000 (acquireLock 1000 [] "LV1" ["h1", "h2"] envC).2
      "LV1" ["h1", "h2"] envC).1 = none :=
  ⟨by decide,
    acquireLock_sequential_mutex 1000 1000 [] "LV1" ["h1", "h2"] ["h1", "h2"]
      envC envC (by intro r hrm; simp at hrm) (by decide) (by decide)
      (by decide)⟩

/-- The host loop returns the first reachable host and stops there, whatever
`lastError` it carries. -/
theorem connectGo_first_up (attempt : String → Except String Unit) (h : String)
    (post : List String) (hup : attempt h = Except.ok ()) :
    ∀ (pre : List String) (acc : Option String),
      (∀ x ∈ pre, ∃ e, attempt x = Except.error e) →
      connectGo attempt (pre ++ h :: post) acc = (Except.ok h, pre ++ [h]) := by
  intro pre
  induction pre with
  | nil =>
    intro acc _
    simp [connectGo, hup]
  | cons x xs ih =>
    intro acc hall
    rcases hall x (List.mem_cons_self x xs) with ⟨e, he⟩
    have hrest : ∀ y ∈ xs, ∃ er, attempt y = Except.error er := fun y hy =>
      hall y (List.mem_cons_of_mem x hy)
    simp [connectGo, he, ih (some e) hrest]

/-- When every host fails, the loop ends with the aggregate error built from
the message of the last attempt. -/
theorem connectGo_exhausted (attempt : String → Except String Unit) :
    ∀ (ips : List String) (acc : Option String) (lst : String) (e : String),
      (∀ x ∈ ips, ∃ er, attempt x = Except.error er) →
      ips.getLast? = some lst → attempt lst = Except.error e →
      (connectGo attempt ips acc).1 = Except.error (noServerMsg ++ e) := by
  intro ips
  induction ips with
  | nil => intro acc lst e _ hl _; simp at hl
  | cons x xs ih =>
    intro acc lst e hall hl hle
    cases xs with
    | nil =>
      have hlx : x = lst := by simpa using hl
      subst hlx
      simp [connectGo, hle]
    | cons y ys =>
      rcases hall x (List.mem_cons_self x (y :: ys)) with ⟨er, her⟩
      have hl2 : (y :: ys).getLast? = some lst := by
        rw [List.getLast?_cons_cons] at hl; exact hl
      have hall2 : ∀ z ∈ y :: ys, ∃ er2, attempt z = Except.error er2 := fun z hz =>
        hall z (List.mem_cons_of_mem x hz)
      have hrec := ih (some er) lst e hall2 hl2 hle
      simp only [connectGo, her]
      exact hrec

/-- C6: the failover connector tries candidates strictly in list order — if
every host before `h` fails and `h` opens and validates, it returns `h`
having attempted exactly the failing ones and `h`, never a later host; and
when every candidate fails it throws the aggregate error referencing the
last underlying cause. -/
theorem connect_failover_order
    (attempt : String → Except String Unit) (pre post : List String) (h : String)
    (hpre : ∀ x ∈ pre, ∃ e, attempt x = Except.error e)
    (hup : attempt h = Except.ok ()) :
    connectToSynologyWithFailover attempt (pre ++ h :: post) =
      (Except.ok h, pre ++ [h]) ∧
    (∀ (ips : List String) (lst e : String),
      (∀ x ∈ ips, ∃ er, attempt x = Except.error er) →
      ips.getLast? = some lst → attempt lst = Except.error e →
      (connectToSynologyWithFailover attempt ips).1 =
        Except.error (noServerMsg ++ e)) := by
  constructor
  · exact connectGo_first_up attempt h post hup pre none hpre
  · intro ips lst e hall hl hle
    exact connectGo_exhausted attempt ips none lst e hall hl hle

/-- Witness for C6: scenario 4 — candidates H1 (down) and H2 (up) yield
`selectedHost = H2` with both attempted in order. -/
theorem connect_failover_order_witness :
    connectToSynologyWithFailover attemptC ["H1", "H2"] =
      (Except.ok "H2", ["H1", "H2"]) :=
  (connect_failover_order attemptC ["H1"] [] "H2"
    (by intro x hx; simp at hx; subst hx; exact ⟨"ECONNREFUSED", rfl⟩)
    (by rfl)).1

/-- A write records the clock as the file's modification time. -/
theorem destLookup_write_self (d : DestFs) (p : List String) (c : Nat) :
    destLookup (destWrite d p c) p = some c := by
  simp [destLookup, destWrite, List.lookup]

/-- A write leaves every other path unchanged. -/
theorem destLookup_write_ne (d : DestFs) (p q : List String) (c : Nat)
    (h : p ≠ q) : destLookup (destWrite d q c) p = destLookup d p := by
  have hbeq : (p == q) = false := by simpa using h
  simp [destLookup, destWrite, List.lookup, hbeq]

/-- `ensureDirectory` does not touch the file map. -/
theorem destLookup_ensureDir (d : DestFs) (p q : List String) :
    destLookup (ensureDir d q) p = destLookup d p := by
  unfold ensureDir
  by_cases h : d.dirs.contains q
  · rw [if_pos h]
  · rw [if_neg h]; rfl

/-- C7: classification of one file entry by the synchronizer — destination
absent: copy, count it copied, add its bytes, read and write performed;
destination present but strictly older: overwrite likewise; otherwise: count
it skipped with no content read or write and the destination untouched. -/
theorem sync_file_classification
    (clock : Nat) (dest : DestFs) (sp tp : List String) (n : String)
    (size mtime : Nat) :
    (destLookup dest (tp ++ [n]) = none →
      syncEntry clock dest sp tp (SrcEntry.file n size mtime true) =
        { stats := { copiedFiles := 1, skippedFiles := 0, totalBytes := size }
          dest := destWrite dest (tp ++ [n]) clock
          log := [Ev.readF (sp ++ [n]), Ev.writeF (tp ++ [n])] }) ∧
    (∀ dm, destLookup dest (tp ++ [n]) = some dm → dm < mtime →
      syncEntry clock dest sp tp (SrcEntry.file n size mtime true) =
        { stats := { copiedFiles := 1, skippedFiles := 0, totalBytes := size }
          dest := destWrite dest (tp ++ [n]) clock
          log := [Ev.readF (sp ++ [n]), Ev.writeF (tp ++ [n])] }) ∧
    (∀ dm, destLookup dest (tp ++ [n]) = some dm → ¬ dm < mtime →
      syncEntry clock dest sp tp (SrcEntry.file n size mtime true) =
        { stats := { copiedFiles := 0, skippedFiles := 1, totalBytes := 0 }
          dest := dest, log := [] }) := by
  refine ⟨?_, ?_, ?_⟩
  · intro habs
    simp [syncEntry, syncFileItem, habs]
  · intro dm hdm hlt
    simp [syncEntry, syncFileItem, hdm, hlt]
  · intro dm hdm hge
    simp [syncEntry, syncFileItem, hdm, hge]

/-- Witness for C7: over a destination holding `a` at modification time 50 —
a fresh `b` is copied; `a` with source time 60 is overwritten; `a` with
source time 40 is skipped with no read or write. -/
theorem sync_file_classification_witness :
    syncEntry 100 destC [] [] (SrcEntry.file "b" 10 60 true) =
      { stats := { copiedFiles := 1, skippedFiles := 0, totalBytes := 10 }
        dest := destWrite destC ["b"] 100
        log := [Ev.readF ["b"], Ev.writeF ["b"]] } ∧
    syncEntry 100 destC [] [] (SrcEntry.file "a" 20 60 true) =
      { stats := { copiedFiles := 1, skippedFiles := 0, totalBytes := 20 }
        dest := destWrite destC ["a"] 100
        log := [Ev.readF ["a"], Ev.writeF ["a"]] } ∧
    syncEntry 100 destC [] [] (SrcEntry.file "a" 20 40 true) =
      { stats := { copiedFiles := 0, skippedFiles := 1, totalBytes := 0 }
        dest := destC, log := [] } :=
  ⟨(sync_file_classification 100 destC [] [] "b" 10 60).1 (by decide),
    (sync_file_classification 100 destC [] [] "a" 20 60).2.1 50 (by decide)
      (by decide),
    (sync_file_classification 100 destC [] [] "a" 20 40).2.2 50 (by decide)
      (by decide)⟩

/-- The LV1 loop never changes the recorded state of a path that already
exists on the destination. -/
theorem backupLv1Files_frame (clock : Nat) (tp : List String) :
    ∀ (fs : List Lv1File) (dest : DestFs) (p : List String),
      (destLookup dest p).isSome = true →
      destLookup (backupLv1Files clock dest tp fs).dest p = destLookup dest p := by
  intro fs
  induction fs with
  | nil => intro dest p _; rfl
  | cons f fs ih =>
    intro dest p hp
    by_cases hex : (destLookup dest (tp ++ [f.name])).isSome = true
    · simp only [backupLv1Files, lv1Step, if_pos hex]
      exact ih dest p hp
    · by_cases hrd : f.readable = true
      · have hne : p ≠ tp ++ [f.name] := by
          intro he; rw [he] at hp; exact hex hp
        have hw : destLookup (destWrite dest (tp ++ [f.name]) clock) p =
            destLookup dest p := destLookup_write_ne dest p (tp ++ [f.name]) clock hne
        simp only [backupLv1Files, lv1Step, if_neg hex, if_pos hrd]
        rw [ih (destWrite dest (tp ++ [f.name]) clock) p (by rw [hw]; exact hp), hw]
      · simp only [backupLv1Files, lv1Step, if_neg hex,
          if_neg hrd]
        exact ih dest p hp

/-- The LV1 loop never writes to a path that already exists on the
destination. -/
theorem backupLv1Files_no_overwrite_ev (clock : Nat) (tp : List String) :
    ∀ (fs : List Lv1File) (dest : DestFs) (p : List String),
      (destLookup dest p).isSome = true →
      Ev.writeF p ∉ (backupLv1Files clock dest tp fs).log := by
  intro fs
  induction fs with
  | nil => intro dest p _; simp [backupLv1Files]
  | cons f fs ih =>
    intro dest p hp
    by_cases hex : (destLookup dest (tp ++ [f.name])).isSome = true
    · simp only [backupLv1Files, lv1Step, if_pos hex, List.nil_append]
      exact ih dest p hp
    · by_cases hrd : f.readable = true
      · have hne : p ≠ tp ++ [f.name] := by
          intro he; rw [he] at hp; exact hex hp
        have hw : destLookup (destWrite dest (tp ++ [f.name]) clock) p =
            destLookup dest p := destLookup_write_ne dest p (tp ++ [f.name]) clock hne
        simp only [backupLv1Files, lv1Step, if_neg hex, if_pos hrd, List.mem_append,
          List.mem_cons, List.mem_singleton, not_or]
        refine ⟨⟨by simp, by simp [hne]⟩, ?_⟩
        exact ih (destWrite dest (tp ++ [f.name]) clock) p (by rw [hw]; exact hp)
      · simp only [backupLv1Files, lv1Step, if_neg hex, if_neg hrd, List.mem_append,
          List.mem_cons, List.mem_singleton, not_or]
        refine ⟨by simp, ?_⟩
        exact ih dest p hp

/-- C10: the LV1 backup compares by presence only — a source file whose
target path already exists is counted skipped with no content read or write,
whatever either side's modification time; consequently no pre-existing
destination file is ever rewritten or its recorded state changed, and the
destination only accumulates files. -/
theorem backupLv1_presence_only
    (clock : Nat) (dest : DestFs) (tp : List String) (fs : List Lv1File) :
    (∀ p, (destLookup dest p).isSome = true →
      destLookup (backupLv1Files clock dest tp fs).dest p = destLookup dest p) ∧
    (∀ p, (destLookup dest p).isSome = true →
      Ev.writeF p ∉ (backupLv1Files clock dest tp fs).log) ∧
    (∀ f : Lv1File, (destLookup dest (tp ++ [f.name])).isSome = true →
      lv1Step clock dest tp f =
        { copied := 0, skipped := 1, bytes := 0, dest := dest, log := [] }) := by
  refine ⟨fun p hp => backupLv1Files_frame clock tp fs dest p hp,
    fun p hp => backupLv1Files_no_overwrite_ev clock tp fs dest p hp,
    fun f hf => ?_⟩
  simp [lv1Step, hf]

/-- Witness for C10: the destination already holds `a` (modification time
50); running LV1 over a source `a` with a newer modification time leaves the
recorded entry untouched, performs no write to it, and counts one skip. -/
theorem backupLv1_presence_only_witness :
    destLookup (backupLv1Files 100 destC []
      [{ name := "a", size := 5, mtime := 999, readable := true }]).dest ["a"] =
      destLookup destC ["a"] ∧
    Ev.writeF ["a"] ∉ (backupLv1Files 100 destC []
      [{ name := "a", size := 5, mtime := 999, readable := true }]).log ∧
    lv1Step 100 destC [] { name := "a", size := 5, mtime := 999, readable := true } =
      { copied := 0, skipped := 1, bytes := 0, dest := destC, log := [] } :=
  ⟨(backupLv1_presence_only 100 destC []
      [{ name := "a", size := 5, mtime := 999, readable := true }]).1 ["a"]
      (by decide),
    (backupLv1_presence_only 100 destC []
      [{ name := "a", size := 5, mtime := 999, readable := true }]).2.1 ["a"]
      (by decide),
    (backupLv1_presence_only 100 destC []
      [{ name := "a", size := 5, mtime := 999, readable := true }]).2.2
      { name := "a", size := 5, mtime := 999, readable := true } (by decide)⟩

/-- Distinct final components give distinct target paths under the same
directory. -/
theorem path_snoc_ne (tp : List String) (a b : String) (h : a ≠ b) :
    tp ++ [a] ≠ tp ++ [b] := by
  intro he
  simp only [List.append_cancel_left_eq, List.cons.injEq, and_true] at he
  exact h he

/-- A readable file always contributes exactly one to copied-plus-skipped,
whichever branch it takes. -/
theorem syncFileItem_readable_one (clock : Nat) (dest : DestFs)
    (sp tp : List String) (size mtime : Nat) :
    (syncFileItem clock dest sp tp size mtime true).stats.copiedFiles +
    (syncFileItem clock dest sp tp size mtime true).stats.skippedFiles = 1 := by
  unfold syncFileItem
  cases destLookup dest tp with
  | none => simp
  | some dm => by_cases h : dm < mtime <;> simp [h]

/-- A file item leaves the destination unchanged or writes exactly its own
target path. -/
theorem syncFileItem_dest_cases (clock : Nat) (dest : DestFs)
    (sp tp : List String) (size mtime : Nat) (rd : Bool) :
    (syncFileItem clock dest sp tp size mtime rd).dest = dest ∨
    (syncFileItem clock dest sp tp size mtime rd).dest = destWrite dest tp clock := by
  unfold syncFileItem
  cases destLookup dest tp with
  | none => cases rd <;> simp
  | some dm => by_cases h : dm < mtime <;> cases rd <;> simp [h]

/-- A run over readable files only reports every file as copied or
skipped. -/
theorem syncList_readable_count (clock : Nat) (sp tp : List String) :
    ∀ (es : List SrcEntry) (dest : DestFs),
      (∀ e ∈ es, isReadableFile e = true) →
      (syncList clock dest sp tp es).stats.copiedFiles +
        (syncList clock dest sp tp es).stats.skippedFiles = es.length := by
  intro es
  induction es with
  | nil => intro dest _; simp [syncList, SyncStats.zero]
  | cons e es ih =>
    intro dest hall
    have he : isReadableFile e = true := hall e (List.mem_cons_self e es)
    cases e with
    | dir n cs => simp [isReadableFile] at he
    | file n sz mt rd =>
      have hrd : rd = true := by simpa [isReadableFile] using he
      subst hrd
      have hrest : ∀ x ∈ es, isReadableFile x = true := fun x hx =>
        hall x (List.mem_cons_of_mem _ hx)
      have h1 := syncFileItem_readable_one clock dest (sp ++ [n]) (tp ++ [n]) sz mt
      have h2 := ih (syncEntry clock dest sp tp (SrcEntry.file n sz mt true)).dest hrest
      simp only [syncList, syncEntry, SyncStats.add, List.length_cons] at h1 h2 ⊢
      omega

/-- Over file-only entries whose names all differ from the last component of
`p`, an absent destination path stays absent. -/
theorem syncList_files_preserve_absent (clock : Nat) (sp tp : List String)
    (bn : String) :
    ∀ (es : List SrcEntry) (dest : DestFs),
      (∀ e ∈ es, isReadableFile e = true) →
      (∀ e ∈ es, entryName e ≠ bn) →
      destLookup dest (tp ++ [bn]) = none →
      destLookup (syncList clock dest sp tp es).dest (tp ++ [bn]) = none := by
  intro es
  induction es with
  | nil => intro dest _ _ habs; simpa [syncList] using habs
  | cons e es ih =>
    intro dest hall hname habs
    have he : isReadableFile e = true := hall e (List.mem_cons_self e es)
    cases e with
    | dir n cs => simp [isReadableFile] at he
    | file n sz mt rd =>
      have hrd : rd = true := by simpa [isReadableFile] using he
      subst hrd
      have hn : n ≠ bn := by
        simpa [entryName] using hname _ (List.mem_cons_self _ es)
      have habs1 : destLookup
          (syncEntry clock dest sp tp (SrcEntry.file n sz mt true)).dest
          (tp ++ [bn]) = none := by
        rcases syncFileItem_dest_cases clock dest (sp ++ [n]) (tp ++ [n]) sz mt true
          with hd | hd
        · simp only [syncEntry]
          rw [hd]
          exact habs
        · simp only [syncEntry]
          rw [hd, destLookup_write_ne dest (tp ++ [bn]) (tp ++ [n]) clock
            (path_snoc_ne tp bn n (Ne.symm hn))]
          exact habs
      have hrest : ∀ x ∈ es, isReadableFile x = true := fun x hx =>
        hall x (List.mem_cons_of_mem _ hx)
      have hnrest : ∀ x ∈ es, entryName x ≠ bn := fun x hx =>
        hname x (List.mem_cons_of_mem _ hx)
      simp only [syncList]
      exact ih _ hrest hnrest habs1

/-- C8: with exactly one unreadable file among otherwise readable sibling
files — its destination absent, so its read is attempted and fails — the run
still completes and counts every other sibling: copied plus skipped plus one
equals the number of siblings; the failing file is counted as neither. -/
theorem sync_one_bad_file_isolated
    (clock : Nat) (dest : DestFs) (sp tp : List String)
    (pre post : List SrcEntry) (bn : String) (bs bm : Nat)
    (hpre : ∀ e ∈ pre, isReadableFile e = true)
    (hpost : ∀ e ∈ post, isReadableFile e = true)
    (hname : ∀ e ∈ pre, entryName e ≠ bn)
    (habs : destLookup dest (tp ++ [bn]) = none) :
    (syncList clock dest sp tp
        (pre ++ SrcEntry.file bn bs bm false :: post)).stats.copiedFiles +
    (syncList clock dest sp tp
        (pre ++ SrcEntry.file bn bs bm false :: post)).stats.skippedFiles + 1 =
      (pre ++ SrcEntry.file bn bs bm false :: post).length := by
  induction pre generalizing dest with
  | nil =>
    have hbad : syncEntry clock dest sp tp (SrcEntry.file bn bs bm false) =
        { stats := SyncStats.zero, dest := dest, log := [Ev.readF (sp ++ [bn])] } := by
      simp [syncEntry, syncFileItem, habs]
    have hrest := syncList_readable_count clock sp tp post dest hpost
    simp only [List.nil_append, syncList, hbad, SyncStats.add, SyncStats.zero,
      List.length_cons]
    omega
  | cons x xs ih =>
    have hx : isReadableFile x = true := hpre x (List.mem_cons_self x xs)
    cases x with
    | dir n cs => simp [isReadableFile] at hx
    | file n sz mt rd =>
      have hrd : rd = true := by simpa [isReadableFile] using hx
      subst hrd
      have hxs : ∀ e ∈ xs, isReadableFile e = true := fun e hee =>
        hpre e (List.mem_cons_of_mem _ hee)
      have hnxs : ∀ e ∈ xs, entryName e ≠ bn := fun e hee =>
        hname e (List.mem_cons_of_mem _ hee)
      have hn : n ≠ bn := by
        simpa [entryName] using hname _ (List.mem_cons_self _ xs)
      have habs1 : destLookup
          (syncEntry clock dest sp tp (SrcEntry.file n sz mt true)).dest
          (tp ++ [bn]) = none := by
        rcases syncFileItem_dest_cases clock dest (sp ++ [n]) (tp ++ [n]) sz mt true
          with hd | hd
        · simp only [syncEntry]; rw [hd]; exact habs
        · simp only [syncEntry]
          rw [hd, destLookup_write_ne dest (tp ++ [bn]) (tp ++ [n]) clock
            (path_snoc_ne tp bn n (Ne.symm hn))]
          exact habs
      have h1 := syncFileItem_readable_one clock dest (sp ++ [n]) (tp ++ [n]) sz mt
      have h2 := ih (syncEntry clock dest sp tp (SrcEntry.file n sz mt true)).dest
        hxs hnxs habs1
      simp only [List.cons_append, syncList, SyncStats.add, List.length_cons,
        List.length_append] at h1 h2 ⊢
      simp only [syncEntry] at h1 h2 ⊢
      omega

/-- Witness for C8: three siblings `a`, `bad`, `c` with `bad` unreadable over
an empty destination — the run reports copied + skipped = 2 of 3. -/
theorem sync_one_bad_file_isolated_witness :
    (syncList 100 { files := [], dirs := [] } [] []
        [SrcEntry.file "a" 10 5 true, SrcEntry.file "bad" 20 5 false,
         SrcEntry.file "c" 30 5 true]).stats.copiedFiles +
    (syncList 100 { files := [], dirs := [] } [] []
        [SrcEntry.file "a" 10 5 true, SrcEntry.file "bad" 20 5 false,
         SrcEntry.file "c" 30 5 true]).stats.skippedFiles + 1 = 3 :=
  sync_one_bad_file_isolated 100 { files := [], dirs := [] } [] []
    [SrcEntry.file "a" 10 5 true] [SrcEntry.file "c" 30 5 true] "bad" 20 5
    (by intro e hee; simp at hee; subst hee; rfl)
    (by intro e hee; simp at hee; subst hee; rfl)
    (by intro e hee; simp at hee; subst hee; simp [entryName])
    (by rfl)

mutual

/-- Over a tree of readable files, every file ends up copied or skipped. -/
theorem entryReadableCount (clock : Nat) (e : SrcEntry) :
    ∀ (dest : DestFs) (sp tp : List String),
      entryAllReadable e = true →
      (syncEntry clock dest sp tp e).stats.copiedFiles +
        (syncEntry clock dest sp tp e).stats.skippedFiles = entryFileCount e := by
  cases e with
  | file n sz mt rd =>
    intro dest sp tp hred
    have hrd : rd = true := by simpa [entryAllReadable] using hred
    subst hrd
    simpa [syncEntry, entryFileCount] using
      syncFileItem_readable_one clock dest (sp ++ [n]) (tp ++ [n]) sz mt
  | dir n cs =>
    intro dest sp tp hred
    have hf : forestAllReadable cs = true := by
      simpa [entryAllReadable] using hred
    simp only [syncEntry, copyDirectoryRecursive, entryFileCount]
    exact forestReadableCount clock cs (ensureDir dest (tp ++ [n]))
      (sp ++ [n]) (tp ++ [n]) hf

/-- Forest version of `entryReadableCount`. -/
theorem forestReadableCount (clock : Nat) (es : List SrcEntry) :
    ∀ (dest : DestFs) (sp tp : List String),
      forestAllReadable es = true →
      (syncList clock dest sp tp es).stats.copiedFiles +
        (syncList clock dest sp tp es).stats.skippedFiles = forestFileCount es := by
  cases es with
  | nil => intro dest sp tp _; simp [syncList, forestFileCount, SyncStats.zero]
  | cons e es2 =>
    intro dest sp tp h
    have h2 : entryAllReadable e = true ∧ forestAllReadable es2 = true := by
      simpa [forestAllReadable, Bool.and_eq_true] using h
    have ha := entryReadableCount clock e dest sp tp h2.1
    have hb := forestReadableCount clock es2 (syncEntry clock dest sp tp e).dest
      sp tp h2.2
    simp only [syncList, SyncStats.add, forestFileCount]
    omega

end

/-- `ensureDirectory` keeps the file map. -/
theorem ensureDir_files (d : DestFs) (q : List String) :
    (ensureDir d q).files = d.files := by
  unfold ensureDir
  by_cases h : d.dirs.contains q
  · rw [if_pos h]
  · rw [if_neg h]

mutual

/-- After syncing a tree, every path reads as before or as a file written at
the current clock. -/
theorem entryLookupEvolve (clock : Nat) (e : SrcEntry) :
    ∀ (dest : DestFs) (sp tp p : List String),
      destLookup (syncEntry clock dest sp tp e).dest p = destLookup dest p ∨
      destLookup (syncEntry clock dest sp tp e).dest p = some clock := by
  cases e with
  | file n sz mt rd =>
    intro dest sp tp p
    rcases syncFileItem_dest_cases clock dest (sp ++ [n]) (tp ++ [n]) sz mt rd
      with hd | hd
    · left; simp only [syncEntry]; rw [hd]
    · by_cases hp : p = tp ++ [n]
      · right
        simp only [syncEntry]
        rw [hd, hp, destLookup_write_self]
      · left
        simp only [syncEntry]
        rw [hd, destLookup_write_ne dest p (tp ++ [n]) clock hp]
  | dir n cs =>
    intro dest sp tp p
    simp only [syncEntry, copyDirectoryRecursive]
    rcases forestLookupEvolve clock cs (ensureDir dest (tp ++ [n]))
      (sp ++ [n]) (tp ++ [n]) p with h | h
    · left; rw [h, destLookup_ensureDir]
    · right; exact h

/-- Forest version of `entryLookupEvolve`. -/
theorem forestLookupEvolve (clock : Nat) (es : List SrcEntry) :
    ∀ (dest : DestFs) (sp tp p : List String),
      destLookup (syncList clock dest sp tp es).dest p = destLookup dest p ∨
      destLookup (syncList clock dest sp tp es).dest p = some clock := by
  cases es with
  | nil => intro dest sp tp p; left; simp [syncList]
  | cons e es2 =>
    intro dest sp tp p
    rcases forestLookupEvolve clock es2 (syncEntry clock dest sp tp e).dest
      sp tp p with h | h
    · rcases entryLookupEvolve clock e dest sp tp p with h2 | h2
      · left
        simp only [syncList]
        rw [h, h2]
      · right
        simp only [syncList]
        rw [h, h2]
    · right
      simp only [syncList]
      exact h

end

mutual

/-- Coverage of a tree only reads the destination's file map. -/
theorem entryCoveredCongr (e : SrcEntry) :
    ∀ (d d' : DestFs) (tp : List String), d'.files = d.files →
      entryCovered d tp e → entryCovered d' tp e := by
  cases e with
  | file n sz mt rd =>
    intro d d' tp hf hc
    rcases hc with ⟨m, hm, hle⟩
    exact ⟨m, by rw [destLookup, hf]; exact hm, hle⟩
  | dir n cs =>
    intro d d' tp hf hc
    exact forestCoveredCongr cs d d' (tp ++ [n]) hf hc

/-- Forest version of `entryCoveredCongr`. -/
theorem forestCoveredCongr (es : List SrcEntry) :
    ∀ (d d' : DestFs) (tp : List String), d'.files = d.files →
      forestCovered d tp es → forestCovered d' tp es := by
  cases es with
  | nil => intro d d' tp _ _; trivial
  | cons e es2 =>
    intro d d' tp hf hc
    exact ⟨entryCoveredCongr e d d' tp hf hc.1,
      forestCoveredCongr es2 d d' tp hf hc.2⟩

end

mutual

/-- Coverage survives any further syncing at the same clock, provided the
tree's modification times do not exceed that clock. -/
theorem entryCoveredPreserve (clock : Nat) (e : SrcEntry) :
    ∀ (d d' : DestFs) (tp : List String),
      entryMtimesLE clock e = true →
      (∀ p, destLookup d' p = destLookup d p ∨ destLookup d' p = some clock) →
      entryCovered d tp e → entryCovered d' tp e := by
  cases e with
  | file n sz mt rd =>
    intro d d' tp hmt hev hc
    rcases hc with ⟨m, hm, hle⟩
    rcases hev (tp ++ [n]) with h | h
    · exact ⟨m, by rw [h]; exact hm, hle⟩
    · refine ⟨clock, h, ?_⟩
      have : mt ≤ clock := by simpa [entryMtimesLE] using hmt
      exact this
  | dir n cs =>
    intro d d' tp hmt hev hc
    have hmt2 : forestMtimesLE clock cs = true := by
      simpa [entryMtimesLE] using hmt
    exact forestCoveredPreserve clock cs d d' (tp ++ [n]) hmt2 hev hc

/-- Forest version of `entryCoveredPreserve`. -/
theorem forestCoveredPreserve (clock : Nat) (es : List SrcEntry) :
    ∀ (d d' : DestFs) (tp : List String),
      forestMtimesLE clock es = true →
      (∀ p, destLookup d' p = destLookup d p ∨ destLookup d' p = some clock) →
      forestCovered d tp es → forestCovered d' tp es := by
  cases es with
  | nil => intro d d' tp _ _ _; trivial
  | cons e es2 =>
    intro d d' tp hmt hev hc
    have h2 : entryMtimesLE clock e = true ∧ forestMtimesLE clock es2 = true := by
      simpa [forestMtimesLE, Bool.and_eq_true] using hmt
    exact ⟨entryCoveredPreserve clock e d d' tp h2.1 hev hc.1,
      forestCoveredPreserve clock es2 d d' tp h2.2 hev hc.2⟩

end

mutual

/-- Syncing a readable tree whose modification times are within the clock
leaves every one of its files covered on the destination. -/
theorem entryCoverageAfter (clock : Nat) (e : SrcEntry) :
    ∀ (dest : DestFs) (sp tp : List String),
      entryAllReadable e = true → entryMtimesLE clock e = true →
      entryCovered (syncEntry clock dest sp tp e).dest tp e := by
  cases e with
  | file n sz mt rd =>
    intro dest sp tp hred hmt
    have hrd : rd = true := by simpa [entryAllReadable] using hred
    subst hrd
    have hmtc : mt ≤ clock := by simpa [entryMtimesLE] using hmt
    simp only [entryCovered, syncEntry]
    unfold syncFileItem
    cases hdl : destLookup dest (tp ++ [n]) with
    | none =>
      refine ⟨clock, ?_, hmtc⟩
      simp [destLookup_write_self]
    | some dm =>
      by_cases hlt : dm < mt
      · refine ⟨clock, ?_, hmtc⟩
        simp [hlt, destLookup_write_self]
      · refine ⟨dm, ?_, by omega⟩
        simp [hlt, hdl]
  | dir n cs =>
    intro dest sp tp hred hmt
    have hf : forestAllReadable cs = true := by simpa [entryAllReadable] using hred
    have hmt2 : forestMtimesLE clock cs = true := by simpa [entryMtimesLE] using hmt
    simp only [entryCovered, syncEntry, copyDirectoryRecursive]
    exact forestCoverageAfter clock cs (ensureDir dest (tp ++ [n]))
      (sp ++ [n]) (tp ++ [n]) hf hmt2

/-- Forest version of `entryCoverageAfter`. -/
theorem forestCoverageAfter (clock : Nat) (es : List SrcEntry) :
    ∀ (dest : DestFs) (sp tp : List String),
      forestAllReadable es = true → forestMtimesLE clock es = true →
      forestCovered (syncList clock dest sp tp es).dest tp es := by
  cases es with
  | nil => intro dest sp tp _ _; trivial
  | cons e es2 =>
    intro dest sp tp hred hmt
    have hr2 : entryAllReadable e = true ∧ forestAllReadable es2 = true := by
      simpa [forestAllReadable, Bool.and_eq_true] using hred
    have hm2 : entryMtimesLE clock e = true ∧ forestMtimesLE clock es2 = true := by
      simpa [forestMtimesLE, Bool.and_eq_true] using hmt
    have hcove : entryCovered (syncEntry clock dest sp tp e).dest tp e :=
      entryCoverageAfter clock e dest sp tp hr2.1 hm2.1
    have hcovrest : forestCovered
        (syncList clock (syncEntry clock dest sp tp e).dest sp tp es2).dest tp es2 :=
      forestCoverageAfter clock es2 (syncEntry clock dest sp tp e).dest sp tp
        hr2.2 hm2.2
    simp only [syncList]
    refine ⟨?_, ?_⟩
    · have hev := forestLookupEvolve clock es2 (syncEntry clock dest sp tp e).dest sp tp
      exact entryCoveredPreserve clock e (syncEntry clock dest sp tp e).dest
        (syncList clock (syncEntry clock dest sp tp e).dest sp tp es2).dest tp
        hm2.1 hev hcove
    · exact hcovrest

end

mutual

/-- Syncing a tree whose files are all covered copies nothing: every file is
skipped, no bytes move, and the destination file map is unchanged. -/
theorem entryCoveredRun (clock2 : Nat) (e : SrcEntry) :
    ∀ (d : DestFs) (sp tp : List String),
      entryCovered d tp e →
      (syncEntry clock2 d sp tp e).stats =
        { copiedFiles := 0, skippedFiles := entryFileCount e, totalBytes := 0 } ∧
      (syncEntry clock2 d sp tp e).dest.files = d.files := by
  cases e with
  | file n sz mt rd =>
    intro d sp tp hc
    rcases hc with ⟨m, hm, hle⟩
    have hnlt : ¬ m < mt := by omega
    simp only [syncEntry, entryFileCount]
    unfold syncFileItem
    rw [hm]
    simp [hnlt]
  | dir n cs =>
    intro d sp tp hc
    have hc2 : forestCovered (ensureDir d (tp ++ [n])) (tp ++ [n]) cs :=
      forestCoveredCongr cs d (ensureDir d (tp ++ [n])) (tp ++ [n])
        (ensureDir_files d (tp ++ [n])) hc
    have h := forestCoveredRun clock2 cs (ensureDir d (tp ++ [n]))
      (sp ++ [n]) (tp ++ [n]) hc2
    simp only [syncEntry, copyDirectoryRecursive, entryFileCount]
    exact ⟨h.1, by rw [h.2, ensureDir_files]⟩

/-- Forest version of `entryCoveredRun`. -/
theorem forestCoveredRun (clock2 : Nat) (es : List SrcEntry) :
    ∀ (d : DestFs) (sp tp : List String),
      forestCovered d tp es →
      (syncList clock2 d sp tp es).stats =
        { copiedFiles := 0, skippedFiles := forestFileCount es, totalBytes := 0 } ∧
      (syncList clock2 d sp tp es).dest.files = d.files := by
  cases es with
  | nil => intro d sp tp _; exact ⟨by simp [syncList, SyncStats.zero, forestFileCount], by simp [syncList]⟩
  | cons e es2 =>
    intro d sp tp hc
    have h1 := entryCoveredRun clock2 e d sp tp hc.1
    have hc2 : forestCovered (syncEntry clock2 d sp tp e).dest tp es2 :=
      forestCoveredCongr es2 d (syncEntry clock2 d sp tp e).dest tp h1.2 hc.2
    have h2 := forestCoveredRun clock2 es2 (syncEntry clock2 d sp tp e).dest sp tp hc2
    constructor
    · simp only [syncList, SyncStats.add, h1.1, h2.1, forestFileCount]
    · simp only [syncList]
      rw [h2.2, h1.2]

end

/-- C9: running the synchronizer twice over an unchanged, fully readable
source tree whose modification times predate the first run's clock yields
zero copies on the second run, and the second run's skipped count equals the
first run's total file count (its copied plus skipped). -/
theorem sync_second_run_idempotent
    (clock1 clock2 : Nat) (dest : DestFs) (sp tp : List String)
    (es : List SrcEntry)
    (hread : forestAllReadable es = true)
    (hmt : forestMtimesLE clock1 es = true) :
    (copyDirectoryRecursive clock2
        (copyDirectoryRecursive clock1 dest sp tp es).dest sp tp es).stats.copiedFiles = 0 ∧
    (copyDirectoryRecursive clock2
        (copyDirectoryRecursive clock1 dest sp tp es).dest sp tp es).stats.skippedFiles =
      (copyDirectoryRecursive clock1 dest sp tp es).stats.copiedFiles +
      (copyDirectoryRecursive clock1 dest sp tp es).stats.skippedFiles := by
  have hcov1 : forestCovered (copyDirectoryRecursive clock1 dest sp tp es).dest tp es := by
    simp only [copyDirectoryRecursive]
    exact forestCoverageAfter clock1 es (ensureDir dest tp) sp tp hread hmt
  have hcov2 : forestCovered
      (ensureDir (copyDirectoryRecursive clock1 dest sp tp es).dest tp) tp es :=
    forestCoveredCongr es (copyDirectoryRecursive clock1 dest sp tp es).dest
      (ensureDir (copyDirectoryRecursive clock1 dest sp tp es).dest tp) tp
      (ensureDir_files _ tp) hcov1
  have hrun2 := forestCoveredRun clock2 es
    (ensureDir (copyDirectoryRecursive clock1 dest sp tp es).dest tp) sp tp hcov2
  have hcount : (copyDirectoryRecursive clock1 dest sp tp es).stats.copiedFiles +
      (copyDirectoryRecursive clock1 dest sp tp es).stats.skippedFiles =
      forestFileCount es := by
    simp only [copyDirectoryRecursive]
    exact forestReadableCount clock1 es (ensureDir dest tp) sp tp hread
  constructor
  · simp only [copyDirectoryRecursive] at hrun2 ⊢
    rw [hrun2.1]
  · simp only [copyDirectoryRecursive] at hrun2 hcount ⊢
    rw [hrun2.1]
    simpa using hcount.symm

/-- Witness for C9: a tree with a nested directory, synced twice into an
empty destination — the second run copies nothing and skips both files. -/
theorem sync_second_run_idempotent_witness :
    (copyDirectoryRecursive 200
        (copyDirectoryRecursive 100 { files := [], dirs := [] } [] []
          [SrcEntry.file "a" 10 5 true,
           SrcEntry.dir "d" [SrcEntry.file "b" 20 7 true]]).dest [] []
        [SrcEntry.file "a" 10 5 true,
         SrcEntry.dir "d" [SrcEntry.file "b" 20 7 true]]).stats.copiedFiles = 0 ∧
    (copyDirectoryRecursive 200
        (copyDirectoryRecursive 100 { files := [], dirs := [] } [] []
          [SrcEntry.file "a" 10 5 true,
           SrcEntry.dir "d" [SrcEntry.file "b" 20 7 true]]).dest [] []
        [SrcEntry.file "a" 10 5 true,
         SrcEntry.dir "d" [SrcEntry.file "b" 20 7 true]]).stats.skippedFiles =
      (copyDirectoryRecursive 100 { files := [], dirs := [] } [] []
        [SrcEntry.file "a" 10 5 true,
         SrcEntry.dir "d" [SrcEntry.file "b" 20 7 true]]).stats.copiedFiles +
      (copyDirectoryRecursive 100 { files := [], dirs := [] } [] []
        [SrcEntry.file "a" 10 5 true,
         SrcEntry.dir "d" [SrcEntry.file "b" 20 7 true]]).stats.skippedFiles :=
  sync_second_run_idempotent 100 200 { files := [], dirs := [] } [] []
    [SrcEntry.file "a" 10 5 true, SrcEntry.dir "d" [SrcEntry.file "b" 20 7 true]]
    (by rfl) (by rfl)
